import Mathlib

/-!
Verification of the execution core of the `fift` interpreter
(`src/modules/mod.rs` plus the `crate::core` contracts described in the
design document).

The stack words of `BaseModule` are embedded as pure functions over a
`Stack` of tagged `Value`s.  Parts of `crate::core` that are not present in
`src/` (the persistent hashmap tree, the atom table, the `LoopCont`
trampoline driver, boolean stack accessors) are modelled from the
specification; each such definition carries a doc comment saying so.
-/

/-- The tagged stack value model (`StackValue` in the core).  A hashmap
root is either `null` (empty map) or a `mapNode`; tuples hold their
elements; atoms, boxes and continuations are identified by their identity.
Keys are modelled as integers (the spec only requires an orderable kind).
-/
inductive Value where
  | null : Value
  | int (n : Int) : Value
  | str (s : String) : Value
  | tuple (ts : List Value) : Value
  | atom (i : Nat) : Value
  | box (i : Nat) : Value
  | cont (i : Nat) : Value
  | mapNode (key : Int) (value : Value) (left : Value) (right : Value) : Value
deriving Repr

/-- The type tag of a stack value (`StackValueType`). -/
inductive Ty where
  | null | int | str | tuple | atom | box | cont | hmap
deriving DecidableEq, Repr

/-- `StackValue::ty`. -/
def Value.ty : Value → Ty
  | .null => .null
  | .int _ => .int
  | .str _ => .str
  | .tuple _ => .tuple
  | .atom _ => .atom
  | .box _ => .box
  | .cont _ => .cont
  | .mapNode _ _ _ _ => .hmap

/-- `StackValue::as_atom`: succeeds only on an atom. -/
def Value.as_atom : Value → Option Nat
  | .atom i => some i
  | _ => none

/-- `StackValue::as_int`. -/
def Value.as_int : Value → Option Int
  | .int n => some n
  | _ => none

/-- `StackValue::as_string`. -/
def Value.as_string : Value → Option String
  | .str s => some s
  | _ => none

/-- `StackValue::as_tuple`. -/
def Value.as_tuple : Value → Option (List Value)
  | .tuple ts => some ts
  | _ => none

/-- The operand stack, top element first. -/
abbrev Stack := List Value

/-- Modelled from the spec: the boolean convenience accessors of the
missing core `Stack` use the Forth convention, encoding `true` as the
integer `-1` and `false` as `0` (`push_bool`). -/
def boolVal (b : Bool) : Value :=
  .int (if b then -1 else 0)

/-- Modelled from the spec: `pop_bool` of the missing core `Stack` pops an
integer and reads any non-zero value as `true`. -/
def Value.as_bool : Value → Option Bool
  | .int n => some (n != 0)
  | _ => none

/-- `pop_usize`: a non-negative integer. -/
def Value.as_usize : Value → Option Nat
  | .int n => if n < 0 then none else some n.toNat
  | _ => none

/-- `pop_hashmap` accepts `null` (empty map) or a map node; the root is
returned as-is (`null` standing for the absent root). -/
def Value.as_hashmap : Value → Option Value
  | .null => some .null
  | .mapNode k v l r => some (.mapNode k v l r)
  | _ => none

/-- `pop_cont_owned` succeeds only on a continuation value. -/
def Value.as_cont : Value → Option Nat
  | .cont i => some i
  | _ => none

/-- Modelled from the spec: `HashMapTreeKey::new` of the missing core
fails on a `Value` kind that admits no total order; orderable keys are
modelled as integers. -/
def hkeyOf : Value → Option Int
  | .int n => some n
  | _ => none

/-- Is this value a well-shaped hashmap root (`null` or nested map nodes)? -/
def isMap : Value → Bool
  | .null => true
  | .mapNode _ _ l r => isMap l && isMap r
  | _ => false

/-- Is this value a map node (a non-empty root)? -/
def isNode : Value → Bool
  | .mapNode _ _ _ _ => true
  | _ => false

/-- `p` holds for every key of the tree. -/
def hAll (p : Int → Bool) : Value → Bool
  | .mapNode k _ l r => p k && hAll p l && hAll p r
  | _ => true

/-- The binary-search-tree invariant of a hashmap root: every reachable
value is `null` or a node whose left keys are smaller and right keys
larger than its own. -/
def isBST : Value → Bool
  | .null => true
  | .mapNode k _ l r =>
      hAll (fun x => decide (x < k)) l && hAll (fun x => decide (k < x)) r
        && isBST l && isBST r
  | _ => false

/-- Modelled from the spec: `HashMapTreeNode::lookup` of the missing core,
a standard ordered search. -/
def hlookup : Value → Int → Option Value
  | .mapNode k v l r, key =>
      if key < k then hlookup l key
      else if k < key then hlookup r key
      else some v
  | _, _ => none

/-- Modelled from the spec: `HashMapTreeNode::set` of the missing core,
insert-or-overwrite rebuilding only the root-to-node path. -/
def hset : Value → Int → Value → Value
  | .mapNode k v l r, key, nv =>
      if key < k then .mapNode k v (hset l key nv) r
      else if k < key then .mapNode k v l (hset r key nv)
      else .mapNode k nv l r
  | _, key, nv => .mapNode key nv .null .null

/-- Modelled from the spec: `HashMapTreeNode::replace` of the missing
core, update-only; the root is returned unchanged when the key is absent. -/
def hreplace : Value → Int → Value → Value
  | .mapNode k v l r, key, nv =>
      if key < k then .mapNode k v (hreplace l key nv) r
      else if k < key then .mapNode k v l (hreplace r key nv)
      else .mapNode k nv l r
  | m, _, _ => m

/-- Modelled from the spec: extraction of the least entry of a non-empty
tree together with the remaining tree, used by standard deletion. -/
def hremoveMin : Value → ((Int × Value) × Value)
  | .mapNode k v l r =>
      if isNode l then
        let p := hremoveMin l
        (p.1, .mapNode k v p.2 r)
      else ((k, v), r)
  | m => ((0, .null), m)

/-- Modelled from the spec: deletion of a node with subtrees `l` and `r`:
when `r` is empty the result is `l`, otherwise the least entry of `r`
becomes the new root over `l` and the remainder of `r`. -/
def hdelRoot (l r : Value) : Value :=
  if isNode r then
    let q := hremoveMin r
    .mapNode q.1.1 q.1.2 l q.2
  else l

/-- Modelled from the spec: `HashMapTreeNode::remove` of the missing core,
standard deletion returning the new root and the removed value (`none`
when the key was absent, with the root unchanged). -/
def hremove : Value → Int → Value × Option Value
  | .mapNode k v l r, key =>
      if key < k then
        let p := hremove l key
        (.mapNode k v p.1 r, p.2)
      else if k < key then
        let p := hremove r key
        (.mapNode k v l p.1, p.2)
      else (hdelRoot l r, some v)
  | m, _ => (m, none)

/-- Modelled from the spec: the in-order entry sequence of a hashmap root,
as produced by the owned iterator of the missing core. -/
def hentries : Value → List (Int × Value)
  | .mapNode k v l r => hentries l ++ (k, v) :: hentries r
  | _ => []

/-- Modelled from the spec: `owned_iter` yields the entries of an
unchanged root in key order; each fresh call restarts from the first
entry. -/
def hmapIter (m : Value) : List (Int × Value) :=
  hentries m

/-- `interpret_is_eqv` (the word `eqv?`): pops `y` then `x` and pushes the
flag computed by tag dispatch; the inner accessors mirror the fallible
`as_atom` / `as_int` / `as_string` calls of the source. -/
def interpret_is_eqv : Stack → Option Stack
  | y :: x :: rest => do
      let b ←
        if x.ty = y.ty then
          match x.ty with
          | .null => some true
          | .atom => do
              let a ← x.as_atom
              let b ← y.as_atom
              some (decide (a = b))
          | .int => do
              let a ← x.as_int
              let b ← y.as_int
              some (decide (a = b))
          | .str => do
              let a ← x.as_string
              let b ← y.as_string
              some (decide (a = b))
          | _ => some false
        else some false
      some (boolVal b :: rest)
  | _ => none

/-- The tag-dispatch table of the `eqv?` claim, written from the spec's
words for the refinement proof: `Null` with `Null` is true, atoms compare
by identity, integers by numeric value, strings by content, and every
other tag combination is false. -/
def eqvSpec : Value → Value → Bool
  | .null, .null => true
  | .atom a, .atom b => a = b
  | .int a, .int b => a = b
  | .str a, .str b => a = b
  | _, _ => false

/-- `interpret_tuple_set` (the word `[]=`): pops the index, the new value
and the tuple, and pushes the tuple with the indexed element replaced.
`Rc::make_mut` clones the element list when the tuple is shared, so the
pushed tuple is a fresh value and every other holder keeps the original. -/
def interpret_tuple_set : Stack → Option Stack
  | iv :: value :: tv :: rest => do
      let idx ← iv.as_usize
      let ts ← tv.as_tuple
      if idx < ts.length then
        some (.tuple (ts.set idx value) :: rest)
      else
        none
  | _ => none

/-- `interpret_hmap_fetch` (the words `hmap@` / `hmap@?`): pops the map
and the key; pushes the found value, or `null` when absent and `chk` is
false; with `chk` it also pushes the found flag. -/
def interpret_hmap_fetch (chk : Bool) : Stack → Option Stack
  | mv :: kv :: rest => do
      let m ← mv.as_hashmap
      let key ← hkeyOf kv
      let value := hlookup m key
      let found := value.isSome
      let s1 :=
        match value with
        | some v => v :: rest
        | none => if chk then rest else .null :: rest
      if chk then some (boolVal found :: s1) else some s1
  | _ => none

/-- `interpret_hmap_store` (the words `hmap!` / `hmap!+`): pops the map,
the key and the value, then stores with `set` (when `add`) or `replace`,
and pushes the new root. -/
def interpret_hmap_store (add : Bool) : Stack → Option Stack
  | mv :: kv :: value :: rest => do
      let m ← mv.as_hashmap
      let key ← hkeyOf kv
      some ((if add then hset m key value else hreplace m key value) :: rest)
  | _ => none

/-- `interpret_hmap_delete` (the words `hmap-` / `hmap-?` / `hmap@-`):
pops the map and the key, removes, pushes the new root, then the removed
value or `null` (when `read`), then the existence flag (when `chk`). -/
def interpret_hmap_delete (chk read_ : Bool) : Stack → Option Stack
  | mv :: kv :: rest => do
      let m ← mv.as_hashmap
      let key ← hkeyOf kv
      let p := hremove m key
      let s1 := p.1 :: rest
      let s2 :=
        match p.2 with
        | some v => if read_ then v :: s1 else s1
        | none => if read_ && !chk then .null :: s1 else s1
      if chk then some (boolVal p.2.isSome :: s2) else some s2
  | _ => none

/-- Modelled from the spec: the Atom Table of the missing core.  Named
atoms are interned in `named`; `next` is the next unused identity, so
anonymous atoms are fresh and never name-indexed. -/
structure Atoms where
  named : List (String × Nat)
  next : Nat
deriving Repr, DecidableEq

/-- Modelled from the spec: `Atoms::get`, a pure lookup with no
allocation. -/
def Atoms.get (a : Atoms) (name : String) : Option Nat :=
  (a.named.find? (fun p => p.1 = name)).map (fun p => p.2)

/-- Modelled from the spec: `Atoms::create_named`, insert-if-absent and
idempotent on the name. -/
def Atoms.create_named (a : Atoms) (name : String) : Nat × Atoms :=
  match a.get name with
  | some i => (i, a)
  | none => (a.next, ⟨(name, a.next) :: a.named, a.next + 1⟩)

/-- Modelled from the spec: `Atoms::create_anon`, always a fresh identity
that is never added to the name index. -/
def Atoms.create_anon (a : Atoms) : Nat × Atoms :=
  (a.next, { a with next := a.next + 1 })

/-- Well-formedness of the atom table: every interned identity is below
`next`, so a fresh identity can never collide with an interned one. -/
def Atoms.WF (a : Atoms) : Prop :=
  ∀ p ∈ a.named, p.2 < a.next

/-- The stack together with its owned atom table (`stack.atoms()`). -/
structure StackSt where
  values : List Value
  atoms : Atoms
deriving Repr

/-- `interpret_atom` (the word `(atom)`): pops the create flag and the
name; looks the name up, creates it when asked and absent, then pushes the
atom (when present) and the existence flag. -/
def interpret_atom (st : StackSt) : Option StackSt :=
  match st.values with
  | cv :: nv :: rest => do
      let create ← cv.as_bool
      let name ← nv.as_string
      let a0 := st.atoms.get name
      let (atom?, atoms') :=
        if create && a0.isNone then
          let p := st.atoms.create_named name
          (some p.1, p.2)
        else (a0, st.atoms)
      match atom? with
      | some i => some ⟨boolVal true :: .atom i :: rest, atoms'⟩
      | none => some ⟨boolVal false :: rest, atoms'⟩
  | _ => none

/-- `interpret_atom_anon` (the word `anon`): pushes a freshly created
anonymous atom. -/
def interpret_atom_anon (st : StackSt) : StackSt :=
  let p := st.atoms.create_anon
  ⟨.atom p.1 :: st.values, p.2⟩

/-- `interpret_getenv` (the word `getenv`): pops the name and pushes the
adapter's value, defaulting to the empty string when the variable is
unset (`unwrap_or_default`).  The environment adapter is the external
`get_env` contract, passed as a function. -/
def interpret_getenv (env : String → Option String) : Stack → Option Stack
  | nv :: rest => do
      let name ← nv.as_string
      some (.str ((env name).getD "") :: rest)
  | _ => none

/-- `interpret_getenv_exists` (the word `getenv?`): pops the name; when
the variable is set, pushes its value then `true`; otherwise pushes only
`false`. -/
def interpret_getenv_exists (env : String → Option String) : Stack → Option Stack
  | nv :: rest => do
      let name ← nv.as_string
      match env name with
      | some value => some (boolVal true :: .str value :: rest)
      | none => some (boolVal false :: rest)
  | _ => none

/-- Modelled from the spec: the `LoopCont` trampoline driver of the
missing core, specialised to `HmapIterCont` and to a body that honours the
protocol (consume the pushed key and value, leave exactly one boolean).
`body i` is the flag the body leaves on iteration `i`.  `pre_exec` pops
the next entry of `iter` (returning false on exhaustion, which ends the
loop before the body runs), `post_exec` stores the popped flag in `ok` and
continues iff the flag is true and an entry remains, and `finalize` runs
exactly once at loop end, pushing `ok`.  The result is the number of body
executions, the boolean pushed by `finalize`, and the entries pushed by
`pre_exec`. -/
def hmapLoopRun (body : Nat → Bool) (i : Nat) (ok : Bool) :
    List (Int × Value) → Nat × Bool × List (Int × Value)
  | [] => (0, ok, [])
  | e :: rest =>
      let flag := body i
      if flag && !rest.isEmpty then
        let r := hmapLoopRun body (i + 1) flag rest
        (r.1 + 1, r.2.1, e :: r.2.2)
      else
        (1, flag, [e])

/-- `interpret_hmap_foreach` (the word `hmapforeach`) composed with the
loop driver run to completion: pops the body continuation and the map.
An empty map (`null`) returns `Ok(None)` — nothing is pushed and control
falls through to the next continuation; a non-empty map installs the
`LoopCont` over `HmapIterCont`, whose net stack effect under the body
protocol is the single boolean pushed by `finalize`. -/
def interpret_hmap_foreach_run (body : Nat → Bool) : Stack → Option Stack
  | fv :: mv :: rest => do
      let _ ← fv.as_cont
      let m ← mv.as_hashmap
      match m with
      | .null => some rest
      | _ => some (boolVal (hmapLoopRun body 0 true (hentries m)).2.1 :: rest)
  | _ => none

/-! ## Claim theorems -/

/-- C3: the word `eqv?` pops `y` and `x` and pushes exactly the boolean of
the spec's tag table: true for `Null`/`Null`; atom identity; integer
numeric equality (at arbitrary magnitude); string content equality; false
for every other combination, including equal tags outside
`{Null, Atom, Int, String}` (e.g. two shared boxes) and differing tags. -/
theorem eqv_word_matches_table (x y : Value) (s : Stack) :
    interpret_is_eqv (y :: x :: s) = some (boolVal (eqvSpec x y) :: s) := by
  cases x <;> cases y <;>
    simp [interpret_is_eqv, eqvSpec, Value.ty, Value.as_atom, Value.as_int,
      Value.as_string]

/-- C10: `getenv` never fails on a missing variable — it pushes the empty
string, indistinguishable from a variable set to the empty string — while
`getenv?` distinguishes the two by pushing the value (when present)
followed by the existence flag. -/
theorem getenv_missing_is_empty_string (env : String → Option String)
    (name : String) (s : Stack) :
    (env name = none →
      interpret_getenv env (.str name :: s) = some (.str "" :: s)
      ∧ interpret_getenv env (.str name :: s)
        = interpret_getenv (fun n => if n = name then some "" else env n)
            (.str name :: s))
  ∧ (∀ v, env name = some v →
      interpret_getenv_exists env (.str name :: s)
        = some (boolVal true :: .str v :: s))
  ∧ (env name = none →
      interpret_getenv_exists env (.str name :: s)
        = some (boolVal false :: s)) := by
  refine ⟨fun h => ?_, fun v h => ?_, fun h => ?_⟩ <;>
    simp [interpret_getenv, interpret_getenv_exists, Value.as_string, h]

/-- C10 witness at a concrete unset variable. -/
theorem getenv_missing_is_empty_string_witness :
    ((fun _ : String => (none : Option String)) "PATH" = none →
      interpret_getenv (fun _ => none) (.str "PATH" :: [])
        = some (.str "" :: [])
      ∧ interpret_getenv (fun _ => none) (.str "PATH" :: [])
        = interpret_getenv
            (fun n => if n = "PATH" then some "" else none)
            (.str "PATH" :: []))
  ∧ (∀ v, (fun _ : String => (none : Option String)) "PATH" = some v →
      interpret_getenv_exists (fun _ => none) (.str "PATH" :: [])
        = some (boolVal true :: .str v :: []))
  ∧ ((fun _ : String => (none : Option String)) "PATH" = none →
      interpret_getenv_exists (fun _ => none) (.str "PATH" :: [])
        = some (boolVal false :: [])) :=
  getenv_missing_is_empty_string (fun _ => none) "PATH" []

/-- C2: copy-on-write for tuples at the word `[]=`. With a tuple shared
between the operand slot and another stack slot `j`, the word replaces the
indexed element in a fresh tuple pushed on top, the fresh tuple reads the
new value at the index and the old elements elsewhere, and the sharing
slot still observes the original tuple unchanged. -/
theorem tuple_set_cow (n : Nat) (v : Value) (ts : List Value) (rest : Stack)
    (j : Nat) (hn : n < ts.length) (hj : rest[j]? = some (.tuple ts)) :
    interpret_tuple_set (.int (n : Int) :: v :: .tuple ts :: rest)
      = some (.tuple (ts.set n v) :: rest)
  ∧ (ts.set n v)[n]? = some v
  ∧ (∀ i, i ≠ n → (ts.set n v)[i]? = ts[i]?)
  ∧ (Value.tuple (ts.set n v) :: rest)[j + 1]? = some (.tuple ts) := by
  refine ⟨?_, ?_, fun i hi => ?_, ?_⟩
  · have h0 : ¬ ((n : Int) < 0) := Int.not_lt.mpr (Int.natCast_nonneg n)
    simp [interpret_tuple_set, Value.as_usize, Value.as_tuple, h0, hn]
  · exact List.getElem?_set_eq_of_lt v hn
  · rw [List.getElem?_set_ne (Ne.symm hi)]
  · simpa using hj

/-- C2 witness: the end-to-end example of the spec, tuple `[10, 20, 30]`
shared with slot 0 of the rest of the stack, index 1 set to 99. -/
theorem tuple_set_cow_witness :
    interpret_tuple_set
        (.int (1 : Nat) :: .int 99 :: .tuple [.int 10, .int 20, .int 30]
          :: [.tuple [.int 10, .int 20, .int 30]])
      = some (.tuple ([Value.int 10, .int 20, .int 30].set 1 (.int 99))
          :: [.tuple [.int 10, .int 20, .int 30]])
  ∧ ([Value.int 10, .int 20, .int 30].set 1 (.int 99))[1]? = some (.int 99)
  ∧ (∀ i, i ≠ 1 →
      ([Value.int 10, .int 20, .int 30].set 1 (.int 99))[i]?
        = [Value.int 10, .int 20, .int 30][i]?)
  ∧ (Value.tuple ([Value.int 10, .int 20, .int 30].set 1 (.int 99))
        :: [.tuple [.int 10, .int 20, .int 30]])[0 + 1]?
      = some (.tuple [.int 10, .int 20, .int 30]) :=
  tuple_set_cow 1 (.int 99) [.int 10, .int 20, .int 30]
    [.tuple [.int 10, .int 20, .int 30]] 0 (by decide) rfl

/-- C9: `hmapforeach` on an empty map pops the body continuation and the
map and pushes nothing — no final boolean — falling through to the next
continuation; on a non-empty map the loop's net effect is exactly one
final boolean pushed above the remaining stack. -/
theorem hmap_foreach_empty_no_flag (body : Nat → Bool) (i : Nat) (m : Value)
    (s : Stack) (hm : isMap m = true) :
    (m = .null →
      interpret_hmap_foreach_run body (.cont i :: m :: s) = some s)
  ∧ (m ≠ .null →
      ∃ b, interpret_hmap_foreach_run body (.cont i :: m :: s)
        = some (boolVal b :: s)) := by
  constructor
  · rintro rfl
    simp [interpret_hmap_foreach_run, Value.as_cont, Value.as_hashmap]
  · intro hne
    cases m with
    | null => exact absurd rfl hne
    | mapNode k v l r => exact ⟨_, rfl⟩
    | int n => simp [isMap] at hm
    | str a => simp [isMap] at hm
    | tuple ts => simp [isMap] at hm
    | atom a => simp [isMap] at hm
    | box a => simp [isMap] at hm
    | cont a => simp [isMap] at hm

/-- C9 witness: at the empty map and at a singleton map. -/
theorem hmap_foreach_empty_no_flag_witness :
    ((Value.null = Value.null →
      interpret_hmap_foreach_run (fun _ => true) (.cont 0 :: .null :: [.int 7])
        = some [.int 7])
    ∧ (Value.null ≠ Value.null →
      ∃ b, interpret_hmap_foreach_run (fun _ => true)
          (.cont 0 :: .null :: [.int 7]) = some (boolVal b :: [.int 7])))
  ∧ ((Value.mapNode 1 .null .null .null = Value.null →
      interpret_hmap_foreach_run (fun _ => true)
          (.cont 0 :: .mapNode 1 .null .null .null :: []) = some [])
    ∧ (Value.mapNode 1 .null .null .null ≠ Value.null →
      ∃ b, interpret_hmap_foreach_run (fun _ => true)
          (.cont 0 :: .mapNode 1 .null .null .null :: [])
        = some (boolVal b :: []))) :=
  ⟨hmap_foreach_empty_no_flag (fun _ => true) 0 .null [.int 7] (by decide),
   hmap_foreach_empty_no_flag (fun _ => true) 0
     (.mapNode 1 .null .null .null) [] (by decide)⟩

/-- Every identity returned by a name lookup in a well-formed atom table
is below the `next` fresh identity. -/
theorem Atoms.get_lt_next {a : Atoms} (hwf : a.WF) {nm : String} {i : Nat}
    (h : a.get nm = some i) : i < a.next := by
  unfold Atoms.get at h
  cases hfind : a.named.find? (fun p => p.1 = nm) with
  | none => rw [hfind] at h; simp at h
  | some p =>
      rw [hfind] at h
      simp only [Option.map_some', Option.some.injEq] at h
      exact h ▸ hwf p (List.mem_of_find?_eq_some hfind)

/-- C8: creating a named atom twice with the same name (the word `(atom)`
with the create flag) pushes identical atoms and leaves the table fixed
after the first creation; two anonymous atoms (the word `anon`) are
distinct fresh identities that no name lookup can ever return. -/
theorem atom_create_idempotent_anon_fresh (a : Atoms) (hwf : a.WF)
    (name : String) (r1 r2 : Stack) :
    (∃ i a', interpret_atom ⟨boolVal true :: .str name :: r1, a⟩
        = some ⟨boolVal true :: .atom i :: r1, a'⟩
      ∧ interpret_atom ⟨boolVal true :: .str name :: r2, a'⟩
        = some ⟨boolVal true :: .atom i :: r2, a'⟩)
  ∧ (∃ x y a2 a3,
      interpret_atom_anon ⟨r1, a⟩ = ⟨.atom x :: r1, a2⟩
      ∧ interpret_atom_anon ⟨r2, a2⟩ = ⟨.atom y :: r2, a3⟩
      ∧ x ≠ y
      ∧ (∀ nm, a3.get nm ≠ some x ∧ a3.get nm ≠ some y)) := by
  constructor
  · cases h : a.get name with
    | some i =>
        refine ⟨i, a, ?_, ?_⟩ <;>
          simp [interpret_atom, Value.as_bool, Value.as_string, boolVal, h,
            Atoms.create_named]
    | none =>
        have hget : (Atoms.mk ((name, a.next) :: a.named) (a.next + 1)).get name
            = some a.next := by
          simp [Atoms.get, List.find?]
        refine ⟨a.next, ⟨(name, a.next) :: a.named, a.next + 1⟩, ?_, ?_⟩ <;>
          simp [interpret_atom, Value.as_bool, Value.as_string, boolVal, h,
            Atoms.create_named, hget]
  · refine ⟨a.next, a.next + 1, ⟨a.named, a.next + 1⟩, ⟨a.named, a.next + 2⟩,
      rfl, rfl, by omega, fun nm => ⟨fun hc => ?_, fun hc => ?_⟩⟩
    · have : a.get nm = some a.next := hc
      have := Atoms.get_lt_next hwf this
      omega
    · have : a.get nm = some (a.next + 1) := hc
      have := Atoms.get_lt_next hwf this
      omega

/-- C8 witness at the empty atom table and the name `x`. -/
theorem atom_create_idempotent_anon_fresh_witness :
    (∃ i a', interpret_atom ⟨boolVal true :: .str "x" :: [], ⟨[], 0⟩⟩
        = some ⟨boolVal true :: .atom i :: [], a'⟩
      ∧ interpret_atom ⟨boolVal true :: .str "x" :: [.null], a'⟩
        = some ⟨boolVal true :: .atom i :: [.null], a'⟩)
  ∧ (∃ x y a2 a3,
      interpret_atom_anon ⟨[], ⟨[], 0⟩⟩ = ⟨.atom x :: [], a2⟩
      ∧ interpret_atom_anon ⟨[.null], a2⟩ = ⟨.atom y :: [.null], a3⟩
      ∧ x ≠ y
      ∧ (∀ nm, a3.get nm ≠ some x ∧ a3.get nm ≠ some y)) :=
  atom_create_idempotent_anon_fresh ⟨[], 0⟩ (by intro p hp; cases hp) "x"
    [] [.null]

/-! ## Map lemmas -/

/-- A well-shaped root is accepted unchanged by `pop_hashmap`. -/
theorem as_hashmap_of_isMap : ∀ {m : Value}, isMap m = true → m.as_hashmap = some m
  | .null, _ => rfl
  | .mapNode _ _ _ _, _ => rfl

/-- Looking up the key just stored by `set` returns the stored value. -/
theorem hlookup_hset_self : ∀ (m : Value) (key : Int) (nv : Value),
    hlookup (hset m key nv) key = some nv
  | .mapNode k v l r, key, nv => by
      rcases lt_trichotomy key k with h | h | h
      · simpa [hset, hlookup, h] using hlookup_hset_self l key nv
      · subst h
        simp [hset, hlookup, lt_self_iff_false]
      · have h1 : ¬ key < k := not_lt_of_gt h
        simpa [hset, hlookup, h, h1] using hlookup_hset_self r key nv
  | .null, key, nv => by simp [hset, hlookup, lt_self_iff_false]
  | .int _, key, nv => by simp [hset, hlookup, lt_self_iff_false]
  | .str _, key, nv => by simp [hset, hlookup, lt_self_iff_false]
  | .tuple _, key, nv => by simp [hset, hlookup, lt_self_iff_false]
  | .atom _, key, nv => by simp [hset, hlookup, lt_self_iff_false]
  | .box _, key, nv => by simp [hset, hlookup, lt_self_iff_false]
  | .cont _, key, nv => by simp [hset, hlookup, lt_self_iff_false]

/-- `set` leaves every other key's lookup unchanged. -/
theorem hlookup_hset_ne : ∀ (m : Value) (key key' : Int) (nv : Value),
    key' ≠ key → hlookup (hset m key nv) key' = hlookup m key'
  | .mapNode k v l r, key, key', nv, hne => by
      rcases lt_trichotomy key k with h | h | h
      · by_cases h1 : key' < k
        · simpa [hset, hlookup, h, h1] using hlookup_hset_ne l key key' nv hne
        · simp [hset, hlookup, h, h1]
      · subst h
        by_cases h2 : key' < key
        · simp [hset, hlookup, h2]
        · have h3 : key < key' := by omega
          simp [hset, hlookup, h2, h3]
      · have h1 : ¬ key < k := not_lt_of_gt h
        by_cases h2 : key' < k
        · simp [hset, hlookup, h, h1, h2]
        · by_cases h3 : k < key'
          · simpa [hset, hlookup, h, h1, h2, h3]
              using hlookup_hset_ne r key key' nv hne
          · simp [hset, hlookup, h, h1, h2, h3]
  | .null, key, key', nv, hne => by
      rcases lt_or_gt_of_ne hne with h | h
      · simp [hset, hlookup, h]
      · have h1 : ¬ key' < key := by omega
        simp [hset, hlookup, h, h1]
  | .int _, key, key', nv, hne => by
      rcases lt_or_gt_of_ne hne with h | h
      · simp [hset, hlookup, h]
      · have h1 : ¬ key' < key := by omega
        simp [hset, hlookup, h, h1]
  | .str _, key, key', nv, hne => by
      rcases lt_or_gt_of_ne hne with h | h
      · simp [hset, hlookup, h]
      · have h1 : ¬ key' < key := by omega
        simp [hset, hlookup, h, h1]
  | .tuple _, key, key', nv, hne => by
      rcases lt_or_gt_of_ne hne with h | h
      · simp [hset, hlookup, h]
      · have h1 : ¬ key' < key := by omega
        simp [hset, hlookup, h, h1]
  | .atom _, key, key', nv, hne => by
      rcases lt_or_gt_of_ne hne with h | h
      · simp [hset, hlookup, h]
      · have h1 : ¬ key' < key := by omega
        simp [hset, hlookup, h, h1]
  | .box _, key, key', nv, hne => by
      rcases lt_or_gt_of_ne hne with h | h
      · simp [hset, hlookup, h]
      · have h1 : ¬ key' < key := by omega
        simp [hset, hlookup, h, h1]
  | .cont _, key, key', nv, hne => by
      rcases lt_or_gt_of_ne hne with h | h
      · simp [hset, hlookup, h]
      · have h1 : ¬ key' < key := by omega
        simp [hset, hlookup, h, h1]

/-- Lookup after a `foldl` of `set` operations is the last matching
update applied to the initial lookup. -/
theorem hlookup_foldl_hset : ∀ (ops : List (Int × Value)) (m : Value) (k : Int),
    hlookup (ops.foldl (fun acc p => hset acc p.1 p.2) m) k
      = ops.foldl (fun acc p => if p.1 = k then some p.2 else acc) (hlookup m k)
  | [], _, _ => rfl
  | (k0, v0) :: t, m, k => by
      simp only [List.foldl_cons]
      rw [hlookup_foldl_hset t (hset m k0 v0) k]
      by_cases h : k0 = k
      · subst h
        simp [hlookup_hset_self]
      · rw [hlookup_hset_ne m k0 k v0 (fun e => h e.symm)]
        simp [h]

/-- The last-update fold equals a `find?` over the reversed sequence. -/
theorem foldl_upd_eq_find? : ∀ (ops : List (Int × Value)) (k : Int) (acc : Option Value),
    ops.foldl (fun acc p => if p.1 = k then some p.2 else acc) acc
      = match ops.reverse.find? (fun p => p.1 == k) with
        | some p => some p.2
        | none => acc
  | [], _, _ => rfl
  | p :: t, k, acc => by
      simp only [List.foldl_cons, List.reverse_cons, List.find?_append]
      rw [foldl_upd_eq_find? t k (if p.1 = k then some p.2 else acc)]
      cases hf : t.reverse.find? (fun q => q.1 == k) with
      | some q => simp
      | none =>
          simp only [Option.none_or]
          by_cases h : p.1 = k
          · have hb : (p.1 == k) = true := by simp [h]
            simp [List.find?, h, hb]
          · have hb : (p.1 == k) = false := by simp [h]
            simp [List.find?, h, hb]

/-- C4: applying any sequence of `hmap!+` stores (`set`) from the empty
map, `hmap@` lookup of a key returns the value of the last `set` with that
key in the sequence, and `none` for a key never set; the word wrappers
compute exactly `hset` and `hlookup` on the popped operands. -/
theorem hmap_set_last_wins (ops : List (Int × Value)) (k : Int) :
    hlookup (ops.foldl (fun acc p => hset acc p.1 p.2) .null) k
      = (ops.reverse.find? (fun p => p.1 == k)).map (fun p => p.2)
  ∧ (∀ m kv v s, isMap m = true →
      interpret_hmap_store true (m :: .int kv :: v :: s)
        = some (hset m kv v :: s))
  ∧ (∀ m kv s, isMap m = true →
      interpret_hmap_fetch false (m :: .int kv :: s)
        = some ((hlookup m kv).getD .null :: s)) := by
  refine ⟨?_, fun m kv v s hm => ?_, fun m kv s hm => ?_⟩
  · rw [hlookup_foldl_hset, foldl_upd_eq_find?]
    cases ops.reverse.find? (fun p => p.1 == k) <;> simp [hlookup]
  · simp [interpret_hmap_store, as_hashmap_of_isMap hm, hkeyOf]
  · cases hv : hlookup m kv <;>
      simp [interpret_hmap_fetch, as_hashmap_of_isMap hm, hkeyOf, hv]

/-- C4 witness: the spec's end-to-end sequence with key 2 overwritten. -/
theorem hmap_set_last_wins_witness :
    hlookup ([((1 : Int), Value.str "a"), (2, .str "b"), (2, .str "c")].foldl
        (fun acc p => hset acc p.1 p.2) .null) 2
      = (([((1 : Int), Value.str "a"), (2, .str "b"), (2, .str "c")].reverse.find?
          (fun p => p.1 == 2)).map (fun p => p.2))
  ∧ (∀ m kv v s, isMap m = true →
      interpret_hmap_store true (m :: .int kv :: v :: s)
        = some (hset m kv v :: s))
  ∧ (∀ m kv s, isMap m = true →
      interpret_hmap_fetch false (m :: .int kv :: s)
        = some ((hlookup m kv).getD .null :: s)) :=
  hmap_set_last_wins [((1 : Int), Value.str "a"), (2, .str "b"), (2, .str "c")] 2

/-- `replace` on an absent key returns the root unchanged. -/
theorem hreplace_absent : ∀ (m : Value) (key : Int) (nv : Value),
    hlookup m key = none → hreplace m key nv = m
  | .mapNode k v l r, key, nv, h => by
      rcases lt_trichotomy key k with h1 | h1 | h1
      · rw [hlookup, if_pos h1] at h
        simp [hreplace, h1, hreplace_absent l key nv h]
      · subst h1
        simp [hlookup, lt_self_iff_false] at h
      · have h2 : ¬ key < k := not_lt_of_gt h1
        rw [hlookup, if_neg h2, if_pos h1] at h
        simp [hreplace, h1, h2, hreplace_absent r key nv h]
  | .null, _, _, _ => rfl
  | .int _, _, _, _ => rfl
  | .str _, _, _, _ => rfl
  | .tuple _, _, _, _ => rfl
  | .atom _, _, _, _ => rfl
  | .box _, _, _, _ => rfl
  | .cont _, _, _, _ => rfl

/-- `replace` on a present key overwrites that key's value. -/
theorem hlookup_hreplace_self : ∀ (m : Value) (key : Int) (nv w : Value),
    hlookup m key = some w → hlookup (hreplace m key nv) key = some nv
  | .mapNode k v l r, key, nv, w, h => by
      rcases lt_trichotomy key k with h1 | h1 | h1
      · rw [hlookup, if_pos h1] at h
        simpa [hreplace, hlookup, h1] using hlookup_hreplace_self l key nv w h
      · subst h1
        simp [hreplace, hlookup, lt_self_iff_false]
      · have h2 : ¬ key < k := not_lt_of_gt h1
        rw [hlookup, if_neg h2, if_pos h1] at h
        simpa [hreplace, hlookup, h1, h2]
          using hlookup_hreplace_self r key nv w h
  | .null, key, nv, w, h => by simp [hlookup] at h
  | .int _, key, nv, w, h => by simp [hlookup] at h
  | .str _, key, nv, w, h => by simp [hlookup] at h
  | .tuple _, key, nv, w, h => by simp [hlookup] at h
  | .atom _, key, nv, w, h => by simp [hlookup] at h
  | .box _, key, nv, w, h => by simp [hlookup] at h
  | .cont _, key, nv, w, h => by simp [hlookup] at h

/-- `replace` leaves every other key's lookup unchanged. -/
theorem hlookup_hreplace_ne : ∀ (m : Value) (key key' : Int) (nv : Value),
    key' ≠ key → hlookup (hreplace m key nv) key' = hlookup m key'
  | .mapNode k v l r, key, key', nv, hne => by
      rcases lt_trichotomy key k with h | h | h
      · by_cases h1 : key' < k
        · simpa [hreplace, hlookup, h, h1]
            using hlookup_hreplace_ne l key key' nv hne
        · simp [hreplace, hlookup, h, h1]
      · subst h
        by_cases h2 : key' < key
        · simp [hreplace, hlookup, h2]
        · have h3 : key < key' := by omega
          simp [hreplace, hlookup, h2, h3]
      · have h1 : ¬ key < k := not_lt_of_gt h
        by_cases h2 : key' < k
        · simp [hreplace, hlookup, h, h1, h2]
        · by_cases h3 : k < key'
          · simpa [hreplace, hlookup, h, h1, h2, h3]
              using hlookup_hreplace_ne r key key' nv hne
          · simp [hreplace, hlookup, h, h1, h2, h3]
  | .null, _, _, _, _ => rfl
  | .int _, _, _, _, _ => rfl
  | .str _, _, _, _, _ => rfl
  | .tuple _, _, _, _, _ => rfl
  | .atom _, _, _, _, _ => rfl
  | .box _, _, _, _, _ => rfl
  | .cont _, _, _, _, _ => rfl

/-- C6: the update-only store `hmap!` (`replace`): on an absent key the
root is returned unchanged — hence equal in key-set and values — and on a
present key only that key's value is overwritten; the word wrapper
computes exactly `hreplace`. -/
theorem hmap_replace_update_only (m : Value) (k : Int) (v : Value) :
    (hlookup m k = none → hreplace m k v = m)
  ∧ (∀ w, hlookup m k = some w → hlookup (hreplace m k v) k = some v)
  ∧ (∀ k', k' ≠ k → hlookup (hreplace m k v) k' = hlookup m k')
  ∧ (∀ s, isMap m = true →
      interpret_hmap_store false (m :: .int k :: v :: s)
        = some (hreplace m k v :: s)) := by
  refine ⟨hreplace_absent m k v, fun w => hlookup_hreplace_self m k v w,
    fun k' => hlookup_hreplace_ne m k k' v, fun s hm => ?_⟩
  simp [interpret_hmap_store, as_hashmap_of_isMap hm, hkeyOf]

/-- C6 witness at a two-entry root, one absent and one present key. -/
theorem hmap_replace_update_only_witness :
    (hlookup (Value.mapNode 1 (.str "a") .null .null) 5 = none →
      hreplace (Value.mapNode 1 (.str "a") .null .null) 5 (.str "z")
        = Value.mapNode 1 (.str "a") .null .null)
  ∧ (∀ w, hlookup (Value.mapNode 1 (.str "a") .null .null) 5 = some w →
      hlookup (hreplace (Value.mapNode 1 (.str "a") .null .null) 5 (.str "z")) 5
        = some (.str "z"))
  ∧ (∀ k', k' ≠ 5 →
      hlookup (hreplace (Value.mapNode 1 (.str "a") .null .null) 5 (.str "z")) k'
        = hlookup (Value.mapNode 1 (.str "a") .null .null) k')
  ∧ (∀ s, isMap (Value.mapNode 1 (.str "a") .null .null) = true →
      interpret_hmap_store false
          (Value.mapNode 1 (.str "a") .null .null :: .int 5 :: .str "z" :: s)
        = some (hreplace (Value.mapNode 1 (.str "a") .null .null) 5 (.str "z") :: s)) :=
  hmap_replace_update_only (Value.mapNode 1 (.str "a") .null .null) 5 (.str "z")

/-- Every entry of the in-order sequence satisfies any key bound holding
on the whole tree. -/
theorem hAll_entries : ∀ (m : Value) (p : Int → Bool), hAll p m = true →
    ∀ e ∈ hentries m, p e.1 = true
  | .mapNode k v l r, p, h, e, he => by
      rw [hAll] at h
      simp only [Bool.and_eq_true] at h
      rw [hentries] at he
      simp only [List.mem_append, List.mem_cons] at he
      rcases he with he | he | he
      · exact hAll_entries l p h.1.2 e he
      · rw [he]
        exact h.1.1
      · exact hAll_entries r p h.2 e he
  | .null, _, _, _, he => by simp [hentries] at he
  | .int _, _, _, _, he => by simp [hentries] at he
  | .str _, _, _, _, he => by simp [hentries] at he
  | .tuple _, _, _, _, he => by simp [hentries] at he
  | .atom _, _, _, _, he => by simp [hentries] at he
  | .box _, _, _, _, he => by simp [hentries] at he
  | .cont _, _, _, _, he => by simp [hentries] at he

/-- The in-order entry sequence of a binary-search tree has strictly
increasing keys. -/
theorem pairwise_hentries : ∀ (m : Value), isBST m = true →
    List.Pairwise (fun a b : Int × Value => a.1 < b.1) (hentries m)
  | .mapNode k v l r, h => by
      rw [isBST] at h
      simp only [Bool.and_eq_true] at h
      obtain ⟨⟨⟨hal, har⟩, hbl⟩, hbr⟩ := h
      rw [hentries, List.pairwise_append]
      refine ⟨pairwise_hentries l hbl, ?_, ?_⟩
      · rw [List.pairwise_cons]
        refine ⟨fun e he => ?_, pairwise_hentries r hbr⟩
        have := hAll_entries r _ har e he
        exact of_decide_eq_true this
      · intro a ha b hb
        have hak : a.1 < k := of_decide_eq_true (hAll_entries l _ hal a ha)
        rcases List.mem_cons.mp hb with hb | hb
        · rw [hb]
          exact hak
        · have hkb : k < b.1 := of_decide_eq_true (hAll_entries r _ har b hb)
          exact lt_trans hak hkb
  | .null, _ => List.Pairwise.nil
  | .int _, h => by simp [isBST] at h
  | .str _, h => by simp [isBST] at h
  | .tuple _, h => by simp [isBST] at h
  | .atom _, h => by simp [isBST] at h
  | .box _, h => by simp [isBST] at h
  | .cont _, h => by simp [isBST] at h

/-- C7: iterating a map root yields its entries with strictly increasing
keys, and iterating the same unchanged root again reproduces the identical
sequence (the iterator is a pure function of the root, so a restart is the
same computation). -/
theorem hmap_iterate_sorted_restartable (m : Value) (h : isBST m = true) :
    List.Pairwise (fun a b : Int × Value => a.1 < b.1) (hmapIter m)
  ∧ hmapIter m = hmapIter m
  ∧ hmapIter m = hentries m :=
  ⟨pairwise_hentries m h, rfl, rfl⟩

/-- C7 witness: the three-entry root of the spec's end-to-end example. -/
theorem hmap_iterate_sorted_restartable_witness :
    List.Pairwise (fun a b : Int × Value => a.1 < b.1)
      (hmapIter (.mapNode 2 (.str "b") (.mapNode 1 (.str "a") .null .null)
        (.mapNode 3 (.str "c") .null .null)))
  ∧ hmapIter (.mapNode 2 (.str "b") (.mapNode 1 (.str "a") .null .null)
        (.mapNode 3 (.str "c") .null .null))
      = hmapIter (.mapNode 2 (.str "b") (.mapNode 1 (.str "a") .null .null)
        (.mapNode 3 (.str "c") .null .null))
  ∧ hmapIter (.mapNode 2 (.str "b") (.mapNode 1 (.str "a") .null .null)
        (.mapNode 3 (.str "c") .null .null))
      = hentries (.mapNode 2 (.str "b") (.mapNode 1 (.str "a") .null .null)
        (.mapNode 3 (.str "c") .null .null)) :=
  hmap_iterate_sorted_restartable
    (.mapNode 2 (.str "b") (.mapNode 1 (.str "a") .null .null)
      (.mapNode 3 (.str "c") .null .null)) (by decide)

/-- A non-empty well-shaped root has a non-empty entry sequence. -/
theorem hentries_ne_nil : ∀ {m : Value}, isMap m = true → m ≠ .null →
    hentries m ≠ []
  | .null, _, hne => absurd rfl hne
  | .mapNode _ _ _ _, _, _ => by simp [hentries]

/-- A body that always leaves true drives the loop over every entry:
one body execution and one pushed entry per element, and `finalize`
pushes true. -/
theorem hmapLoopRun_all_true (body : Nat → Bool) (hb : ∀ j, body j = true) :
    ∀ (l : List (Int × Value)) (i : Nat) (ok : Bool), l ≠ [] →
      hmapLoopRun body i ok l = (l.length, true, l)
  | [], _, _, h => absurd rfl h
  | [e], i, _, _ => by simp [hmapLoopRun, hb i]
  | e :: e2 :: t, i, ok, _ => by
      have ih := hmapLoopRun_all_true body hb (e2 :: t) (i + 1) true
        (List.cons_ne_nil e2 t)
      rw [hmapLoopRun]
      simp [hb i, ih]

/-- A body that first leaves false on iteration `j` stops the loop right
after that iteration: `j + 1` body executions over the first `j + 1`
pushed entries, and `finalize` pushes false. -/
theorem hmapLoopRun_early_stop (body : Nat → Bool) :
    ∀ (l : List (Int × Value)) (i j : Nat) (ok : Bool), j < l.length →
      (∀ n, n < j → body (i + n) = true) → body (i + j) = false →
      hmapLoopRun body i ok l = (j + 1, false, l.take (j + 1))
  | [], _, j, _, hj, _, _ => absurd hj (by simp)
  | e :: rest, i, 0, ok, _, _, hf => by
      simp only [Nat.add_zero] at hf
      simp [hmapLoopRun, hf]
  | e :: rest, i, j + 1, ok, hj, hlt, hf => by
      have h0 : body i = true := by simpa using hlt 0 (Nat.succ_pos j)
      have hj' : j < rest.length := by
        simp only [List.length_cons] at hj
        omega
      have ih := hmapLoopRun_early_stop body rest (i + 1) j true hj'
        (fun n hn => by
          have e1 : i + 1 + n = i + (n + 1) := by omega
          rw [e1]
          exact hlt (n + 1) (by omega))
        (by
          have e1 : i + 1 + j = i + (j + 1) := by omega
          rw [e1]
          exact hf)
      cases rest with
      | nil => exact absurd hj' (by simp)
      | cons e2 t =>
          rw [hmapLoopRun]
          simp [h0, ih]

/-- C1: the Loop continuation driving `hmapforeach` over a non-empty map:
a body that always leaves true runs exactly once per entry pushed by
`pre_exec` (all `N` of them, in order), a body first leaving false on
iteration `j < N` stops the loop right after iteration `j`, and
`finalize` — the terminal step of `hmapLoopRun`, reached exactly once —
pushes true iff the loop was not stopped early. -/
theorem hmap_foreach_loop_protocol (m : Value) (hmap : isMap m = true)
    (hne : m ≠ .null) (body : Nat → Bool) :
    ((∀ j, body j = true) →
      hmapLoopRun body 0 true (hentries m)
        = ((hentries m).length, true, hentries m))
  ∧ (∀ j, j < (hentries m).length → (∀ n, n < j → body n = true) →
      body j = false →
      hmapLoopRun body 0 true (hentries m)
        = (j + 1, false, (hentries m).take (j + 1))) := by
  constructor
  · intro hb
    exact hmapLoopRun_all_true body hb (hentries m) 0 true
      (hentries_ne_nil hmap hne)
  · intro j hj hlt hf
    exact hmapLoopRun_early_stop body (hentries m) 0 j true hj
      (fun n hn => by simpa using hlt n hn) (by simpa using hf)

/-- C1 witness: the three-entry map of the spec's example with the
always-true body. -/
theorem hmap_foreach_loop_protocol_witness :
    ((∀ j, (fun _ : Nat => true) j = true) →
      hmapLoopRun (fun _ => true) 0 true
          (hentries (.mapNode 2 (.str "b") (.mapNode 1 (.str "a") .null .null)
            (.mapNode 3 (.str "c") .null .null)))
        = ((hentries (.mapNode 2 (.str "b") (.mapNode 1 (.str "a") .null .null)
            (.mapNode 3 (.str "c") .null .null))).length, true,
           hentries (.mapNode 2 (.str "b") (.mapNode 1 (.str "a") .null .null)
            (.mapNode 3 (.str "c") .null .null))))
  ∧ (∀ j, j < (hentries (.mapNode 2 (.str "b")
        (.mapNode 1 (.str "a") .null .null)
        (.mapNode 3 (.str "c") .null .null))).length →
      (∀ n, n < j → (fun _ : Nat => true) n = true) →
      (fun _ : Nat => true) j = false →
      hmapLoopRun (fun _ => true) 0 true
          (hentries (.mapNode 2 (.str "b") (.mapNode 1 (.str "a") .null .null)
            (.mapNode 3 (.str "c") .null .null)))
        = (j + 1, false,
           (hentries (.mapNode 2 (.str "b") (.mapNode 1 (.str "a") .null .null)
            (.mapNode 3 (.str "c") .null .null))).take (j + 1))) :=
  hmap_foreach_loop_protocol
    (.mapNode 2 (.str "b") (.mapNode 1 (.str "a") .null .null)
      (.mapNode 3 (.str "c") .null .null)) (by decide)
    (fun h => Value.noConfusion h) (fun _ => true)

/-- A key bound holding on a tree is preserved under pointwise
implication. -/
theorem hAll_imp : ∀ (m : Value) (p q : Int → Bool),
    (∀ x, p x = true → q x = true) → hAll p m = true → hAll q m = true
  | .mapNode k v l r, p, q, himp, h => by
      rw [hAll] at h ⊢
      simp only [Bool.and_eq_true] at h ⊢
      exact ⟨⟨himp k h.1.1, hAll_imp l p q himp h.1.2⟩, hAll_imp r p q himp h.2⟩
  | .null, _, _, _, _ => rfl
  | .int _, _, _, _, _ => rfl
  | .str _, _, _, _, _ => rfl
  | .tuple _, _, _, _, _ => rfl
  | .atom _, _, _, _, _ => rfl
  | .box _, _, _, _, _ => rfl
  | .cont _, _, _, _, _ => rfl

/-- A successful lookup's key satisfies any bound holding on the whole
tree. -/
theorem hlookup_hAll : ∀ (m : Value) (p : Int → Bool) (k : Int) (v : Value),
    hAll p m = true → hlookup m k = some v → p k = true
  | .mapNode k0 v0 l r, p, k, v, hall, hl => by
      rw [hAll] at hall
      simp only [Bool.and_eq_true] at hall
      by_cases h1 : k < k0
      · rw [hlookup, if_pos h1] at hl
        exact hlookup_hAll l p k v hall.1.2 hl
      · by_cases h2 : k0 < k
        · rw [hlookup, if_neg h1, if_pos h2] at hl
          exact hlookup_hAll r p k v hall.2 hl
        · have hk : k = k0 := by omega
          rw [hk]
          exact hall.1.1
  | .null, _, _, _, _, hl => by simp [hlookup] at hl
  | .int _, _, _, _, _, hl => by simp [hlookup] at hl
  | .str _, _, _, _, _, hl => by simp [hlookup] at hl
  | .tuple _, _, _, _, _, hl => by simp [hlookup] at hl
  | .atom _, _, _, _, _, hl => by simp [hlookup] at hl
  | .box _, _, _, _, _, hl => by simp [hlookup] at hl
  | .cont _, _, _, _, _, hl => by simp [hlookup] at hl

/-- A key violating a bound holding on the whole tree is absent. -/
theorem hlookup_none_of_hAll (m : Value) (p : Int → Bool) (k : Int)
    (hall : hAll p m = true) (hp : p k = false) : hlookup m k = none := by
  cases hl : hlookup m k with
  | none => rfl
  | some v =>
      have := hlookup_hAll m p k v hall hl
      rw [hp] at this
      exact Bool.noConfusion this

/-- A binary-search-tree value that is not a node is the empty root. -/
theorem null_of_isBST_not_node : ∀ {m : Value}, isBST m = true →
    isNode m = false → m = .null
  | .null, _, _ => rfl
  | .mapNode _ _ _ _, _, hn => by simp [isNode] at hn
  | .int _, h, _ => by simp [isBST] at h
  | .str _, h, _ => by simp [isBST] at h
  | .tuple _, h, _ => by simp [isBST] at h
  | .atom _, h, _ => by simp [isBST] at h
  | .box _, h, _ => by simp [isBST] at h
  | .cont _, h, _ => by simp [isBST] at h

/-- Extracting the least entry preserves any key bound, and the extracted
key satisfies it. -/
theorem hremoveMin_hAll : ∀ (m : Value) (p : Int → Bool),
    hAll p m = true → isNode m = true →
    p (hremoveMin m).1.1 = true ∧ hAll p (hremoveMin m).2 = true
  | .mapNode k v l r, p, h, _ => by
      rw [hAll] at h
      simp only [Bool.and_eq_true] at h
      obtain ⟨⟨hk, hl⟩, hr⟩ := h
      by_cases hn : isNode l = true
      · have ih := hremoveMin_hAll l p hl hn
        rw [hremoveMin]
        simp only [hn, if_true]
        refine ⟨ih.1, ?_⟩
        rw [hAll]
        simp [hk, ih.2, hr]
      · rw [hremoveMin]
        simp only [hn]
        simp [hk, hr]
  | .null, _, _, hn => by simp [isNode] at hn
  | .int _, _, _, hn => by simp [isNode] at hn
  | .str _, _, _, hn => by simp [isNode] at hn
  | .tuple _, _, _, hn => by simp [isNode] at hn
  | .atom _, _, _, hn => by simp [isNode] at hn
  | .box _, _, _, hn => by simp [isNode] at hn
  | .cont _, _, _, hn => by simp [isNode] at hn

/-- Extracting the least entry of a binary-search tree leaves a
binary-search tree whose keys all exceed the extracted key. -/
theorem hremoveMin_isBST : ∀ (m : Value), isBST m = true → isNode m = true →
    isBST (hremoveMin m).2 = true
    ∧ hAll (fun x => decide ((hremoveMin m).1.1 < x)) (hremoveMin m).2 = true
  | .mapNode k v l r, h, _ => by
      rw [isBST] at h
      simp only [Bool.and_eq_true] at h
      obtain ⟨⟨⟨hal, har⟩, hbl⟩, hbr⟩ := h
      by_cases hn : isNode l = true
      · have ih := hremoveMin_isBST l hbl hn
        have hmin := hremoveMin_hAll l (fun x => decide (x < k)) hal hn
        have hmk : (hremoveMin l).1.1 < k := of_decide_eq_true hmin.1
        rw [hremoveMin]
        simp only [hn, if_true]
        constructor
        · rw [isBST]
          simp only [Bool.and_eq_true]
          exact ⟨⟨⟨hmin.2, har⟩, ih.1⟩, hbr⟩
        · rw [hAll]
          simp only [Bool.and_eq_true]
          refine ⟨⟨by simp [hmk], ih.2⟩, ?_⟩
          refine hAll_imp r _ _ (fun x hx => ?_) har
          have := of_decide_eq_true hx
          exact decide_eq_true (by omega)
      · rw [hremoveMin, if_neg hn]
        exact ⟨hbr, har⟩
  | .null, _, hn => by simp [isNode] at hn
  | .int _, _, hn => by simp [isNode] at hn
  | .str _, _, hn => by simp [isNode] at hn
  | .tuple _, _, hn => by simp [isNode] at hn
  | .atom _, _, hn => by simp [isNode] at hn
  | .box _, _, hn => by simp [isNode] at hn
  | .cont _, _, hn => by simp [isNode] at hn

/-- Lookup characterisation of least-entry extraction: the extracted
entry was present, is absent afterwards, and every other key is
untouched. -/
theorem hremoveMin_lookup : ∀ (m : Value), isBST m = true → isNode m = true →
    hlookup m (hremoveMin m).1.1 = some (hremoveMin m).1.2
    ∧ hlookup (hremoveMin m).2 (hremoveMin m).1.1 = none
    ∧ ∀ k', k' ≠ (hremoveMin m).1.1 →
        hlookup (hremoveMin m).2 k' = hlookup m k'
  | .mapNode k v l r, h, _ => by
      rw [isBST] at h
      simp only [Bool.and_eq_true] at h
      obtain ⟨⟨⟨hal, har⟩, hbl⟩, hbr⟩ := h
      by_cases hn : isNode l = true
      · have ih := hremoveMin_lookup l hbl hn
        have hmin := hremoveMin_hAll l (fun x => decide (x < k)) hal hn
        have hmk : (hremoveMin l).1.1 < k := of_decide_eq_true hmin.1
        rw [hremoveMin]
        simp only [hn, if_true]
        refine ⟨?_, ?_, fun k' hk' => ?_⟩
        · rw [hlookup, if_pos hmk]
          exact ih.1
        · rw [hlookup, if_pos hmk]
          exact ih.2.1
        · rcases lt_trichotomy k' k with h1 | h1 | h1
          · rw [hlookup, if_pos h1, hlookup, if_pos h1]
            exact ih.2.2 k' hk'
          · subst h1
            simp [hlookup, lt_irrefl]
          · have h2 : ¬ k' < k := by omega
            rw [hlookup, if_neg h2, if_pos h1, hlookup, if_neg h2, if_pos h1]
      · have hl0 : l = .null := null_of_isBST_not_node hbl (Bool.eq_false_iff.mpr hn)
        subst hl0
        rw [hremoveMin, if_neg hn]
        refine ⟨?_, ?_, fun k' hk' => ?_⟩
        · show hlookup (Value.mapNode k v Value.null r) k = some v
          rw [hlookup]
          simp
        · show hlookup r k = none
          exact hlookup_none_of_hAll r _ k har (by simp)
        · have hk2 : k' ≠ k := hk'
          show hlookup r k' = hlookup (Value.mapNode k v Value.null r) k'
          rcases lt_trichotomy k' k with h1 | h1 | h1
          · have hrhs : hlookup (Value.mapNode k v Value.null r) k' = none := by
              rw [hlookup, if_pos h1]
              rfl
            rw [hrhs]
            exact hlookup_none_of_hAll r _ k' har
              (by simp only [decide_eq_false_iff_not]; omega)
          · exact absurd h1 hk2
          · rw [hlookup, if_neg (by omega : ¬ k' < k), if_pos h1]
  | .null, _, hn => by simp [isNode] at hn
  | .int _, _, hn => by simp [isNode] at hn
  | .str _, _, hn => by simp [isNode] at hn
  | .tuple _, _, hn => by simp [isNode] at hn
  | .atom _, _, hn => by simp [isNode] at hn
  | .box _, _, hn => by simp [isNode] at hn
  | .cont _, _, hn => by simp [isNode] at hn


/-- Root deletion preserves any key bound holding on both subtrees. -/
theorem hdelRoot_hAll (l r : Value) (p : Int → Bool) (hl : hAll p l = true)
    (hr : hAll p r = true) : hAll p (hdelRoot l r) = true := by
  by_cases hn : isNode r = true
  · have hmin := hremoveMin_hAll r p hr hn
    rw [hdelRoot, if_pos hn]
    show hAll p (Value.mapNode (hremoveMin r).1.1 (hremoveMin r).1.2 l
      (hremoveMin r).2) = true
    rw [hAll]
    simp [hmin.1, hl, hmin.2]
  · rw [hdelRoot, if_neg hn]
    exact hl

/-- Root deletion of a node whose subtrees satisfy the search-tree
conditions yields a binary-search tree. -/
theorem hdelRoot_isBST (k : Int) (l r : Value)
    (hal : hAll (fun x => decide (x < k)) l = true)
    (har : hAll (fun x => decide (k < x)) r = true)
    (hbl : isBST l = true) (hbr : isBST r = true) :
    isBST (hdelRoot l r) = true := by
  by_cases hn : isNode r = true
  · have hminA := hremoveMin_hAll r _ har hn
    have hminB := hremoveMin_isBST r hbr hn
    have hkm : k < (hremoveMin r).1.1 := of_decide_eq_true hminA.1
    rw [hdelRoot, if_pos hn]
    show isBST (Value.mapNode (hremoveMin r).1.1 (hremoveMin r).1.2 l
      (hremoveMin r).2) = true
    rw [isBST]
    simp only [Bool.and_eq_true]
    refine ⟨⟨⟨?_, hminB.2⟩, hbl⟩, hminB.1⟩
    refine hAll_imp l _ _ (fun x hx => ?_) hal
    have hx' := of_decide_eq_true hx
    exact decide_eq_true (by omega)
  · rw [hdelRoot, if_neg hn]
    exact hbl

/-- After root deletion the deleted key is absent. -/
theorem hdelRoot_lookup_self (k : Int) (l r : Value)
    (hal : hAll (fun x => decide (x < k)) l = true)
    (har : hAll (fun x => decide (k < x)) r = true) :
    hlookup (hdelRoot l r) k = none := by
  by_cases hn : isNode r = true
  · have hminA := hremoveMin_hAll r _ har hn
    have hkm : k < (hremoveMin r).1.1 := of_decide_eq_true hminA.1
    rw [hdelRoot, if_pos hn]
    show hlookup (Value.mapNode (hremoveMin r).1.1 (hremoveMin r).1.2 l
      (hremoveMin r).2) k = none
    rw [hlookup, if_pos hkm]
    exact hlookup_none_of_hAll l _ k hal (by simp)
  · rw [hdelRoot, if_neg hn]
    exact hlookup_none_of_hAll l _ k hal (by simp)

/-- After root deletion every other key's lookup matches the appropriate
subtree. -/
theorem hdelRoot_lookup_ne (k k' : Int) (l r : Value)
    (hal : hAll (fun x => decide (x < k)) l = true)
    (har : hAll (fun x => decide (k < x)) r = true)
    (hbr : isBST r = true) (hne : k' ≠ k) :
    hlookup (hdelRoot l r) k'
      = if k' < k then hlookup l k' else hlookup r k' := by
  by_cases hn : isNode r = true
  · have hminA := hremoveMin_hAll r _ har hn
    have hminL := hremoveMin_lookup r hbr hn
    have hkm : k < (hremoveMin r).1.1 := of_decide_eq_true hminA.1
    rw [hdelRoot, if_pos hn]
    show hlookup (Value.mapNode (hremoveMin r).1.1 (hremoveMin r).1.2 l
      (hremoveMin r).2) k' = _
    rcases lt_trichotomy k' k with h1 | h1 | h1
    · rw [hlookup, if_pos (by omega : k' < (hremoveMin r).1.1), if_pos h1]
    · exact absurd h1 hne
    · rw [if_neg (by omega : ¬ k' < k)]
      rcases lt_trichotomy k' (hremoveMin r).1.1 with h2 | h2 | h2
      · rw [hlookup, if_pos h2]
        have hrest := (hremoveMin_isBST r hbr hn).2
        have hLHS : hlookup l k' = none :=
          hlookup_none_of_hAll l _ k' hal
            (by simp only [decide_eq_false_iff_not]; omega)
        have hr1 : hlookup (hremoveMin r).2 k' = none :=
          hlookup_none_of_hAll _ _ k' hrest
            (by simp only [decide_eq_false_iff_not]; omega)
        rw [hLHS, ← hminL.2.2 k' (by omega), hr1]
      · rw [h2, hlookup, if_neg (lt_irrefl _), if_neg (lt_irrefl _)]
        exact (hminL.1).symm
      · rw [hlookup, if_neg (by omega : ¬ k' < (hremoveMin r).1.1), if_pos h2]
        exact hminL.2.2 k' (by omega)
  · have hr0 : r = .null := null_of_isBST_not_node hbr (Bool.eq_false_iff.mpr hn)
    subst hr0
    rw [hdelRoot, if_neg hn]
    rcases lt_trichotomy k' k with h1 | h1 | h1
    · rw [if_pos h1]
    · exact absurd h1 hne
    · rw [if_neg (by omega : ¬ k' < k)]
      show hlookup l k' = hlookup Value.null k'
      rw [hlookup_none_of_hAll l _ k' hal
        (by simp only [decide_eq_false_iff_not]; omega)]
      rfl

/-- The removed value reported by `remove` is exactly the previous lookup
result. -/
theorem hremove_snd : ∀ (m : Value) (key : Int),
    (hremove m key).2 = hlookup m key
  | .mapNode k v l r, key => by
      rcases lt_trichotomy key k with h1 | h1 | h1
      · rw [hremove, if_pos h1, hlookup, if_pos h1]
        exact hremove_snd l key
      · subst h1
        rw [hremove, if_neg (lt_irrefl key), if_neg (lt_irrefl key),
          hlookup, if_neg (lt_irrefl key), if_neg (lt_irrefl key)]
      · have h2 : ¬ key < k := by omega
        rw [hremove, if_neg h2, if_pos h1, hlookup, if_neg h2, if_pos h1]
        exact hremove_snd r key
  | .null, _ => rfl
  | .int _, _ => rfl
  | .str _, _ => rfl
  | .tuple _, _ => rfl
  | .atom _, _ => rfl
  | .box _, _ => rfl
  | .cont _, _ => rfl

/-- Removing an absent key leaves the root unchanged and reports no
removed value. -/
theorem hremove_absent : ∀ (m : Value) (key : Int),
    hlookup m key = none → hremove m key = (m, none)
  | .mapNode k v l r, key, h => by
      rcases lt_trichotomy key k with h1 | h1 | h1
      · rw [hlookup, if_pos h1] at h
        rw [hremove, if_pos h1, hremove_absent l key h]
      · subst h1
        rw [hlookup, if_neg (lt_irrefl key), if_neg (lt_irrefl key)] at h
        exact Option.noConfusion h
      · have h2 : ¬ key < k := by omega
        rw [hlookup, if_neg h2, if_pos h1] at h
        rw [hremove, if_neg h2, if_pos h1, hremove_absent r key h]
  | .null, _, _ => rfl
  | .int _, _, _ => rfl
  | .str _, _, _ => rfl
  | .tuple _, _, _ => rfl
  | .atom _, _, _ => rfl
  | .box _, _, _ => rfl
  | .cont _, _, _ => rfl

/-- `remove` preserves any key bound holding on the whole tree. -/
theorem hremove_hAll : ∀ (m : Value) (p : Int → Bool) (key : Int),
    hAll p m = true → hAll p (hremove m key).1 = true
  | .mapNode k v l r, p, key, h => by
      rw [hAll] at h
      simp only [Bool.and_eq_true] at h
      obtain ⟨⟨hk, hl⟩, hr⟩ := h
      rcases lt_trichotomy key k with h1 | h1 | h1
      · rw [hremove, if_pos h1]
        show hAll p (Value.mapNode k v (hremove l key).1 r) = true
        rw [hAll]
        simp [hk, hremove_hAll l p key hl, hr]
      · subst h1
        rw [hremove, if_neg (lt_irrefl key), if_neg (lt_irrefl key)]
        exact hdelRoot_hAll l r p hl hr
      · have h2 : ¬ key < k := by omega
        rw [hremove, if_neg h2, if_pos h1]
        show hAll p (Value.mapNode k v l (hremove r key).1) = true
        rw [hAll]
        simp [hk, hl, hremove_hAll r p key hr]
  | .null, _, _, h => h
  | .int _, _, _, h => h
  | .str _, _, _, h => h
  | .tuple _, _, _, h => h
  | .atom _, _, _, h => h
  | .box _, _, _, h => h
  | .cont _, _, _, h => h

/-- `remove` preserves the binary-search-tree invariant. -/
theorem hremove_isBST : ∀ (m : Value) (key : Int),
    isBST m = true → isBST (hremove m key).1 = true
  | .mapNode k v l r, key, h => by
      rw [isBST] at h
      simp only [Bool.and_eq_true] at h
      obtain ⟨⟨⟨hal, har⟩, hbl⟩, hbr⟩ := h
      rcases lt_trichotomy key k with h1 | h1 | h1
      · rw [hremove, if_pos h1]
        show isBST (Value.mapNode k v (hremove l key).1 r) = true
        rw [isBST]
        simp only [Bool.and_eq_true]
        exact ⟨⟨⟨hremove_hAll l _ key hal, har⟩, hremove_isBST l key hbl⟩, hbr⟩
      · subst h1
        rw [hremove, if_neg (lt_irrefl key), if_neg (lt_irrefl key)]
        exact hdelRoot_isBST key l r hal har hbl hbr
      · have h2 : ¬ key < k := by omega
        rw [hremove, if_neg h2, if_pos h1]
        show isBST (Value.mapNode k v l (hremove r key).1) = true
        rw [isBST]
        simp only [Bool.and_eq_true]
        exact ⟨⟨⟨hal, hremove_hAll r _ key har⟩, hbl⟩, hremove_isBST r key hbr⟩
  | .null, _, _ => rfl
  | .int _, _, h => h
  | .str _, _, h => h
  | .tuple _, _, h => h
  | .atom _, _, h => h
  | .box _, _, h => h
  | .cont _, _, h => h

/-- After `remove` the removed key is absent. -/
theorem hlookup_hremove_self : ∀ (m : Value) (key : Int), isBST m = true →
    hlookup (hremove m key).1 key = none
  | .mapNode k v l r, key, h => by
      rw [isBST] at h
      simp only [Bool.and_eq_true] at h
      obtain ⟨⟨⟨hal, har⟩, hbl⟩, hbr⟩ := h
      rcases lt_trichotomy key k with h1 | h1 | h1
      · rw [hremove, if_pos h1]
        show hlookup (Value.mapNode k v (hremove l key).1 r) key = none
        rw [hlookup, if_pos h1]
        exact hlookup_hremove_self l key hbl
      · subst h1
        rw [hremove, if_neg (lt_irrefl key), if_neg (lt_irrefl key)]
        exact hdelRoot_lookup_self key l r hal har
      · have h2 : ¬ key < k := by omega
        rw [hremove, if_neg h2, if_pos h1]
        show hlookup (Value.mapNode k v l (hremove r key).1) key = none
        rw [hlookup, if_neg h2, if_pos h1]
        exact hlookup_hremove_self r key hbr
  | .null, _, _ => rfl
  | .int _, _, _ => rfl
  | .str _, _, _ => rfl
  | .tuple _, _, _ => rfl
  | .atom _, _, _ => rfl
  | .box _, _, _ => rfl
  | .cont _, _, _ => rfl

/-- After `remove` every other key's lookup is unchanged. -/
theorem hlookup_hremove_ne : ∀ (m : Value) (key k' : Int), isBST m = true →
    k' ≠ key → hlookup (hremove m key).1 k' = hlookup m k'
  | .mapNode k v l r, key, k', h, hne => by
      rw [isBST] at h
      simp only [Bool.and_eq_true] at h
      obtain ⟨⟨⟨hal, har⟩, hbl⟩, hbr⟩ := h
      rcases lt_trichotomy key k with h1 | h1 | h1
      · rw [hremove, if_pos h1]
        show hlookup (Value.mapNode k v (hremove l key).1 r) k'
          = hlookup (Value.mapNode k v l r) k'
        rcases lt_trichotomy k' k with h2 | h2 | h2
        · rw [hlookup, if_pos h2, hlookup, if_pos h2]
          exact hlookup_hremove_ne l key k' hbl hne
        · subst h2
          rw [hlookup, if_neg (lt_irrefl k'), if_neg (lt_irrefl k'),
            hlookup, if_neg (lt_irrefl k'), if_neg (lt_irrefl k')]
        · rw [hlookup, if_neg (by omega : ¬ k' < k), if_pos h2,
            hlookup, if_neg (by omega : ¬ k' < k), if_pos h2]
      · subst h1
        rw [hremove, if_neg (lt_irrefl key), if_neg (lt_irrefl key)]
        show hlookup (hdelRoot l r) k' = hlookup (Value.mapNode key v l r) k'
        rw [hdelRoot_lookup_ne key k' l r hal har hbr hne]
        rcases lt_trichotomy k' key with h2 | h2 | h2
        · rw [if_pos h2, hlookup, if_pos h2]
        · exact absurd h2 hne
        · rw [if_neg (by omega : ¬ k' < key), hlookup,
            if_neg (by omega : ¬ k' < key), if_pos h2]
      · have h2 : ¬ key < k := by omega
        rw [hremove, if_neg h2, if_pos h1]
        show hlookup (Value.mapNode k v l (hremove r key).1) k'
          = hlookup (Value.mapNode k v l r) k'
        rcases lt_trichotomy k' k with h3 | h3 | h3
        · rw [hlookup, if_pos h3, hlookup, if_pos h3]
        · subst h3
          rw [hlookup, if_neg (lt_irrefl k'), if_neg (lt_irrefl k'),
            hlookup, if_neg (lt_irrefl k'), if_neg (lt_irrefl k')]
        · rw [hlookup, if_neg (by omega : ¬ k' < k), if_pos h3,
            hlookup, if_neg (by omega : ¬ k' < k), if_pos h3]
          exact hlookup_hremove_ne r key k' hbr hne
  | .null, _, _, _, _ => rfl
  | .int _, _, _, _, _ => rfl
  | .str _, _, _, _, _ => rfl
  | .tuple _, _, _, _, _ => rfl
  | .atom _, _, _, _, _ => rfl
  | .box _, _, _, _, _ => rfl
  | .cont _, _, _, _, _ => rfl

/-- C5: removing key `k` (the `hmap-` family) makes `k` absent in the new
root, leaves lookup of every other key unchanged, reports exactly the old
value (so `none` for an absent key), and on an absent key returns the root
unchanged; the word wrapper pushes exactly the root computed by
`hremove`. -/
theorem hmap_remove_spec (m : Value) (k : Int) (h : isBST m = true) :
    hlookup (hremove m k).1 k = none
  ∧ (∀ k', k' ≠ k → hlookup (hremove m k).1 k' = hlookup m k')
  ∧ (hremove m k).2 = hlookup m k
  ∧ (hlookup m k = none → hremove m k = (m, none))
  ∧ isBST (hremove m k).1 = true
  ∧ (∀ s, isMap m = true →
      interpret_hmap_delete false false (m :: .int k :: s)
        = some ((hremove m k).1 :: s)) := by
  refine ⟨hlookup_hremove_self m k h, fun k' => hlookup_hremove_ne m k k' h,
    hremove_snd m k, hremove_absent m k, hremove_isBST m k h,
    fun s hm => ?_⟩
  simp only [interpret_hmap_delete, as_hashmap_of_isMap hm, hkeyOf,
    Option.bind_eq_bind, Option.some_bind, Bool.false_and, Bool.and_false,
    Bool.not_true, if_false, Option.some.injEq]
  cases (hremove m k).2 <;> simp

/-- C5 witness: the spec's end-to-end example, removing key 2 from the
three-entry root. -/
theorem hmap_remove_spec_witness :
    hlookup (hremove (Value.mapNode 2 (.str "b")
        (.mapNode 1 (.str "a") .null .null)
        (.mapNode 3 (.str "c") .null .null)) 2).1 2 = none
  ∧ (∀ k', k' ≠ 2 →
      hlookup (hremove (Value.mapNode 2 (.str "b")
          (.mapNode 1 (.str "a") .null .null)
          (.mapNode 3 (.str "c") .null .null)) 2).1 k'
        = hlookup (Value.mapNode 2 (.str "b")
            (.mapNode 1 (.str "a") .null .null)
            (.mapNode 3 (.str "c") .null .null)) k')
  ∧ (hremove (Value.mapNode 2 (.str "b")
        (.mapNode 1 (.str "a") .null .null)
        (.mapNode 3 (.str "c") .null .null)) 2).2
      = hlookup (Value.mapNode 2 (.str "b")
          (.mapNode 1 (.str "a") .null .null)
          (.mapNode 3 (.str "c") .null .null)) 2
  ∧ (hlookup (Value.mapNode 2 (.str "b")
        (.mapNode 1 (.str "a") .null .null)
        (.mapNode 3 (.str "c") .null .null)) 2 = none →
      hremove (Value.mapNode 2 (.str "b")
          (.mapNode 1 (.str "a") .null .null)
          (.mapNode 3 (.str "c") .null .null)) 2
        = (Value.mapNode 2 (.str "b")
            (.mapNode 1 (.str "a") .null .null)
            (.mapNode 3 (.str "c") .null .null), none))
  ∧ isBST (hremove (Value.mapNode 2 (.str "b")
        (.mapNode 1 (.str "a") .null .null)
        (.mapNode 3 (.str "c") .null .null)) 2).1 = true
  ∧ (∀ s, isMap (Value.mapNode 2 (.str "b")
        (.mapNode 1 (.str "a") .null .null)
        (.mapNode 3 (.str "c") .null .null)) = true →
      interpret_hmap_delete false false (Value.mapNode 2 (.str "b")
          (.mapNode 1 (.str "a") .null .null)
          (.mapNode 3 (.str "c") .null .null) :: .int 2 :: s)
        = some ((hremove (Value.mapNode 2 (.str "b")
            (.mapNode 1 (.str "a") .null .null)
            (.mapNode 3 (.str "c") .null .null)) 2).1 :: s)) :=
  hmap_remove_spec (Value.mapNode 2 (.str "b")
    (.mapNode 1 (.str "a") .null .null)
    (.mapNode 3 (.str "c") .null .null)) 2 (by decide)
